import Mathlib

set_option maxRecDepth 100000

/-!
# Verification of the Sliver DNS tunneling transport client

A shallow embedding of the DNS-client subsystem of the `sliver` repository
(package `implant/sliver/transports/dnsclient`) together with the Windows
extension loader (`implant/sliver/extension/extension_windows.go`).

Strings are modelled as `List Char`, byte sequences as `List Nat` whose
entries are below 256.  The implementation file `dnsclient.go` is not part
of the source tree; its behaviour is modelled from the specification and
from the arithmetic recorded in `dnsclient_test.go`, which is part of the
source tree and is the authority on concrete values.
-/

/-! ## Positional digit conversions

Executable little-endian digit conversions used by the alphabet encoders.
`toDigits` is fuel-based so that it reduces inside the kernel; it agrees
with Mathlib's `Nat.digits`.
-/

/-- Value of a little-endian digit string in base `B`. -/
def fromDigits (B : Nat) : List Nat → Nat
  | [] => 0
  | d :: ds => d + B * fromDigits B ds

/-- Fuel-based little-endian digit expansion in base `B`. -/
def toDigitsAux (B : Nat) : Nat → Nat → List Nat
  | 0, _ => []
  | fuel + 1, n => if n = 0 then [] else n % B :: toDigitsAux B fuel (n / B)

/-- Little-endian digit expansion of `n` in base `B` (empty for `n = 0`). -/
def toDigits (B n : Nat) : List Nat := toDigitsAux B n n

theorem fromDigits_eq_ofDigits (B : Nat) (l : List Nat) :
    fromDigits B l = Nat.ofDigits B l := by
  induction l with
  | nil => simp [fromDigits, Nat.ofDigits]
  | cons d ds ih => simp [fromDigits, Nat.ofDigits_cons, ih]

theorem toDigitsAux_eq_digits (B : Nat) (hB : 2 ≤ B) :
    ∀ fuel n, n ≤ fuel → toDigitsAux B fuel n = Nat.digits B n := by
  intro fuel
  induction fuel with
  | zero =>
    intro n hn
    have : n = 0 := Nat.le_zero.mp hn
    subst this
    simp [toDigitsAux]
  | succ f ih =>
    intro n hn
    by_cases h0 : n = 0
    · subst h0; simp [toDigitsAux]
    · have hdiv : n / B < n := Nat.div_lt_self (Nat.pos_of_ne_zero h0) (by omega)
      have : toDigitsAux B (f + 1) n = n % B :: toDigitsAux B f (n / B) := by
        simp [toDigitsAux, h0]
      rw [this, ih (n / B) (by omega),
        Nat.digits_def' (by omega : 1 < B) (Nat.pos_of_ne_zero h0)]

theorem toDigits_eq_digits (B n : Nat) (hB : 2 ≤ B) :
    toDigits B n = Nat.digits B n :=
  toDigitsAux_eq_digits B hB n n le_rfl

theorem fromDigits_toDigits (B n : Nat) (hB : 2 ≤ B) :
    fromDigits B (toDigits B n) = n := by
  rw [toDigits_eq_digits B n hB, fromDigits_eq_ofDigits, Nat.ofDigits_digits]

theorem toDigits_fromDigits (B : Nat) (hB : 2 ≤ B) (l : List Nat)
    (hlt : ∀ d ∈ l, d < B) (hlast : ∀ h : l ≠ [], l.getLast h ≠ 0) :
    toDigits B (fromDigits B l) = l := by
  rw [fromDigits_eq_ofDigits, toDigits_eq_digits _ _ hB,
    Nat.digits_ofDigits B (by omega) l hlt hlast]

theorem toDigits_lt (B n : Nat) (hB : 2 ≤ B) : ∀ d ∈ toDigits B n, d < B := by
  rw [toDigits_eq_digits B n hB]
  intro d hd
  exact Nat.digits_lt_base (by omega) hd

theorem fromDigits_eq_zero (B : Nat) (hB : 1 ≤ B) :
    ∀ l : List Nat, fromDigits B l = 0 → ∀ d ∈ l, d = 0 := by
  intro l h d hd
  rw [fromDigits_eq_ofDigits] at h
  exact Nat.digits_zero_of_eq_zero (by omega) h d hd

/-! ## Alphabet encoders

Modelled from the spec: the `encoders` package (Base58/Base32 variants used
by the DNS client) is not among the sources; §4.3 requires reversible
byte-sequence ↔ DNS-safe-character encodings, one dense and one
conservative, whose character sets are subsets of the DNS-legal alphabet.
Encoding is positional in base `|alphabet|`, preserving leading zero bytes
as repetitions of the first alphabet character (the standard Base58
construction).
-/

/-- Digit value of a character: its index in the alphabet, or `none`. -/
def charToDigit (alphabet : List Char) (c : Char) : Option Nat :=
  if alphabet.indexOf c < alphabet.length then some (alphabet.indexOf c) else none

/-- Modelled from the spec: `encode(bytes) -> string` of §4.3.  Leading zero
bytes become copies of the first alphabet character; the remaining bytes are
read as a big-endian number and written in base `|alphabet|`, most
significant digit first. -/
def encode (alphabet : List Char) (bs : List Nat) : List Char :=
  let zeros := bs.takeWhile (· == 0)
  let rest := bs.dropWhile (· == 0)
  let n := fromDigits 256 rest.reverse
  List.replicate zeros.length (alphabet.headD ' ') ++
    (toDigits alphabet.length n).reverse.map (fun d => alphabet.getD d ' ')

/-- Modelled from the spec: `decode(string) -> bytes` of §4.3, the inverse
direction; fails on characters outside the alphabet. -/
def decode (alphabet : List Char) (s : List Char) : Option (List Nat) :=
  let ones := s.takeWhile (· == alphabet.headD ' ')
  let rest := s.dropWhile (· == alphabet.headD ' ')
  match rest.mapM (charToDigit alphabet) with
  | none => none
  | some ds => some (List.replicate ones.length 0 ++
      (toDigits 256 (fromDigits alphabet.length ds.reverse)).reverse)

theorem charToDigit_getD (alphabet : List Char) (hnd : alphabet.Nodup)
    (d : Nat) (hd : d < alphabet.length) :
    charToDigit alphabet (alphabet.getD d ' ') = some d := by
  rw [charToDigit, List.getD_eq_getElem _ _ hd, List.indexOf_getElem hnd d hd]
  simp [hd]

theorem takeWhile_eq_replicate {α : Type} (p : α → Bool) (a : α)
    (l : List α) (h : ∀ x ∈ l.takeWhile p, x = a) :
    l.takeWhile p = List.replicate (l.takeWhile p).length a :=
  List.eq_replicate_iff.mpr ⟨rfl, h⟩

theorem takeWhile_replicate_append {α : Type} (p : α → Bool) (a : α)
    (hp : p a = true) (k : Nat) (l : List α)
    (hl : l.takeWhile p = []) :
    (List.replicate k a ++ l).takeWhile p = List.replicate k a ∧
      (List.replicate k a ++ l).dropWhile p = l := by
  induction k with
  | zero => simpa using hl
  | succ m ih =>
    rw [List.replicate_succ]
    simp only [List.cons_append, List.takeWhile_cons_of_pos hp,
      List.dropWhile_cons_of_pos hp]
    exact ⟨by rw [ih.1], ih.2⟩

theorem mapM_charToDigit_map (alphabet : List Char) (hnd : alphabet.Nodup)
    (ds : List Nat) (hds : ∀ d ∈ ds, d < alphabet.length) :
    (ds.map (fun d => alphabet.getD d ' ')).mapM (charToDigit alphabet) = some ds := by
  induction ds with
  | nil => rfl
  | cons d ds ih =>
    rw [List.map_cons, List.mapM_cons,
      charToDigit_getD alphabet hnd d (hds d (by simp)),
      ih (fun x hx => hds x (by simp [hx]))]
    rfl

theorem getD_ne_head_of_ne_zero (alphabet : List Char) (hnd : alphabet.Nodup)
    (hB : 2 ≤ alphabet.length) (d : Nat) (hd : d < alphabet.length) (hd0 : d ≠ 0) :
    (alphabet.getD d ' ' == alphabet.headD ' ') = false := by
  have h0 : 0 < alphabet.length := by omega
  have hne : alphabet ≠ [] := by
    intro h; rw [h] at hB; simp at hB
  have hhead : alphabet.headD ' ' = alphabet[0] := by
    cases alphabet with
    | nil => exact absurd rfl hne
    | cons c cs => rfl
  rw [List.getD_eq_getElem _ _ hd, hhead]
  rw [beq_eq_false_iff_ne]
  intro hcontra
  have h1 := List.indexOf_getElem hnd d hd
  have h2 := List.indexOf_getElem hnd 0 h0
  rw [hcontra] at h1
  rw [h1] at h2
  omega

theorem takeWhile_digit_chars (alphabet : List Char) (hnd : alphabet.Nodup)
    (hB : 2 ≤ alphabet.length) (ds : List Nat)
    (hlt : ∀ d ∈ ds, d < alphabet.length)
    (hlast : ∀ h : ds ≠ [], ds.getLast h ≠ 0) :
    (ds.reverse.map (fun d => alphabet.getD d ' ')).takeWhile
      (· == alphabet.headD ' ') = [] := by
  cases hrev : ds.reverse with
  | nil => simp
  | cons d tl =>
    have hne : ds ≠ [] := by
      intro h; rw [h] at hrev; simp at hrev
    have h1 : ds.reverse.head? = some d := by rw [hrev]; rfl
    have h2 : ds.getLast? = some d := by rw [← List.head?_reverse]; exact h1
    have hd_eq : ds.getLast hne = d := by
      rw [List.getLast?_eq_getLast ds hne] at h2
      exact Option.some.inj h2
    have hd0 : d ≠ 0 := hd_eq ▸ hlast hne
    have hdlt : d < alphabet.length := by
      apply hlt
      have : d ∈ ds.reverse := by rw [hrev]; simp
      simpa using this
    have hfalse := getD_ne_head_of_ne_zero alphabet hnd hB d hdlt hd0
    rw [List.map_cons]
    apply List.takeWhile_cons_of_neg
    show ¬ (alphabet.getD d ' ' == alphabet.headD ' ') = true
    rw [hfalse]
    exact Bool.false_ne_true

/-- Modelled from the spec (§4.3): encode/decode are mutually inverse. -/
theorem decode_encode (alphabet : List Char) (hnd : alphabet.Nodup)
    (hB : 2 ≤ alphabet.length) (bs : List Nat) (hbs : ∀ b ∈ bs, b < 256) :
    decode alphabet (encode alphabet bs) = some bs := by
  have hsplit : bs.takeWhile (· == 0) ++ bs.dropWhile (· == 0) = bs :=
    List.takeWhile_append_dropWhile (· == 0) bs
  have hzrep : bs.takeWhile (· == 0) =
      List.replicate (bs.takeWhile (· == 0)).length (0 : Nat) := by
    apply takeWhile_eq_replicate
    intro x hx
    simpa using List.mem_takeWhile_imp hx
  have hrest256 : ∀ d ∈ (bs.dropWhile (· == 0)).reverse, d < 256 := by
    intro d hd
    exact hbs d ((List.dropWhile_sublist (· == 0)).subset (List.mem_reverse.mp hd))
  have hrestlast : ∀ h : (bs.dropWhile (· == 0)).reverse ≠ [],
      ((bs.dropWhile (· == 0)).reverse).getLast h ≠ 0 := by
    intro h
    have hne : bs.dropWhile (· == 0) ≠ [] := by simpa using h
    rw [List.getLast_reverse h]
    have := List.head_dropWhile_not (· == 0) bs (by simpa using hne)
    simpa using this
  set n := fromDigits 256 (bs.dropWhile (· == 0)).reverse with hn
  set ds := toDigits alphabet.length n with hds
  have hdlt : ∀ d ∈ ds, d < alphabet.length := toDigits_lt _ _ hB
  have hdlast : ∀ h : ds ≠ [], ds.getLast h ≠ 0 := by
    intro h
    have hn0 : n ≠ 0 := by
      intro hn0
      rw [hds, hn0] at h
      exact h rfl
    have : ds = Nat.digits alphabet.length n := toDigits_eq_digits _ _ hB
    have hres := Nat.getLast_digit_ne_zero alphabet.length hn0
    revert hres
    simp only [← this]
    intro hres
    exact hres
  have henc : encode alphabet bs =
      List.replicate (bs.takeWhile (· == 0)).length (alphabet.headD ' ') ++
        ds.reverse.map (fun d => alphabet.getD d ' ') := rfl
  have htw := takeWhile_replicate_append (· == alphabet.headD ' ')
    (alphabet.headD ' ') (by simp) (bs.takeWhile (· == 0)).length
    (ds.reverse.map (fun d => alphabet.getD d ' '))
    (takeWhile_digit_chars alphabet hnd hB ds hdlt hdlast)
  have hmapM : (ds.reverse.map (fun d => alphabet.getD d ' ')).mapM
      (charToDigit alphabet) = some ds.reverse :=
    mapM_charToDigit_map alphabet hnd ds.reverse
      (fun d hd => hdlt d (List.mem_reverse.mp hd))
  have hback : toDigits 256 (fromDigits alphabet.length ds.reverse.reverse) =
      (bs.dropWhile (· == 0)).reverse := by
    rw [List.reverse_reverse, hds, fromDigits_toDigits _ _ hB, hn]
    exact toDigits_fromDigits 256 (by omega) _ hrest256 hrestlast
  rw [henc, decode]
  simp only [htw.1, htw.2, List.length_replicate, hmapM, hback]
  rw [List.reverse_reverse]
  rw [show List.replicate (bs.takeWhile (· == 0)).length (0:Nat) ++
      bs.dropWhile (· == 0) = bs from by rw [← hzrep]; exact hsplit]

/-- Modelled from the spec: the dense encoder's alphabet (§4.3), the
standard 58-character DNS-safe Base58 alphabet named by the tests
(`encoders.Base58`). -/
def base58Alphabet : List Char :=
  "123456789ABCDEFGHJKLMNPQRSTUVWXYZabcdefghijkmnopqrstuvwxyz".toList

/-- Modelled from the spec: the conservative fallback encoder's alphabet
(§4.3), 32 universally DNS-safe characters. -/
def base32Alphabet : List Char :=
  "abcdefghijklmnopqrstuvwxyz012345".toList

/-- The alphabet encoders provided by the transport (§2, §4.3): one dense,
one conservative. -/
inductive TransportEncoder where
  | base58 : TransportEncoder
  | base32 : TransportEncoder
deriving DecidableEq

def TransportEncoder.alphabet : TransportEncoder → List Char
  | .base58 => base58Alphabet
  | .base32 => base32Alphabet

theorem alphabet_nodup (e : TransportEncoder) : e.alphabet.Nodup := by
  cases e <;> decide

theorem alphabet_two_le (e : TransportEncoder) : 2 ≤ e.alphabet.length := by
  cases e <;> decide

theorem alphabet_no_dot (e : TransportEncoder) : '.' ∉ e.alphabet := by
  cases e <;> decide

example : decode TransportEncoder.base58.alphabet
    (encode TransportEncoder.base58.alphabet [0, 0, 255, 7, 0]) = some [0, 0, 255, 7, 0] := by
  decide
example : decode TransportEncoder.base32.alphabet
    (encode TransportEncoder.base32.alphabet [9, 0, 200]) = some [9, 0, 200] := by
  decide

/-! ## Capacity calculator and label packer

Modelled from the spec (§4.1, §4.2, §8) and the arithmetic recorded in
`TestSubdataSpace` / `TestJoinSubdata` of `dnsclient_test.go`: a DNS name
may hold 254 visible characters; each data label holds at most 63 content
characters and, per the test's accounting, costs one separator
(`[64 - 64 - 64 - 47]`-style blocks).  The remaining budget after the
parent is divided into 64-character blocks of 63 content characters each,
the final partial block contributing its size minus one separator.
-/

/-- Modelled from the spec: the capacity computed at client construction
(`subdataSpace` of `newDNSClient`, not among the sources), from §4.1 and the
block arithmetic of `TestSubdataSpace`. -/
def subdataSpace (parentLength : Nat) : Nat :=
  63 * ((254 - parentLength) / 64) + ((254 - parentLength) % 64 - 1)

/-- Greedy partition into chunks of at most `k` characters (fuel-based so
that it reduces in the kernel; fuel `l.length` suffices for `1 ≤ k`). -/
def chunksAux (k : Nat) : Nat → List Char → List (List Char)
  | _, [] => []
  | 0, l => [l]
  | fuel + 1, l => l.take k :: chunksAux k fuel (l.drop k)

/-- Greedy partition of a string into consecutive chunks of at most `k`. -/
def chunks (k : Nat) (l : List Char) : List (List Char) := chunksAux k l.length l

/-- Join labels with the `'.'` separator (no trailing separator). -/
def dotJoin : List (List Char) → List Char
  | [] => []
  | [l] => l
  | l :: l' :: ls => l ++ '.' :: dotJoin (l' :: ls)

/-- The errors surfaced by the DNS client model. -/
inductive DNSError where
  | msgTooLong : DNSError
deriving DecidableEq

/-- The "message too long" error of `joinSubdataToParent`. -/
def errMsgTooLong : DNSError := DNSError.msgTooLong

/-- Modelled from the spec: the state of `SliverDNSClient` needed here —
the parent domain and its cached capacity (§3). -/
structure SliverDNSClient where
  parent : List Char
  subdataSpace : Nat
deriving DecidableEq

/-- Modelled from the spec: client construction (`newDNSClient`, not among
the sources) computes and caches the capacity for the parent (§3, §4.1). -/
def newDNSClient (parent : List Char) : SliverDNSClient :=
  { parent := parent, subdataSpace := subdataSpace parent.length }

/-- Modelled from the spec: `joinSubdataToParent` (§4.2) — fails with
"message too long" when the subdata exceeds the capacity, otherwise slices
the subdata into consecutive 63-character labels, joins them with `'.'`,
and appends the parent (whose leading `'.'` supplies the last separator). -/
def joinSubdataToParent (client : SliverDNSClient) (subdata : List Char) :
    Except DNSError (List Char) :=
  if client.subdataSpace < subdata.length then .error errMsgTooLong
  else .ok (dotJoin (chunks 63 subdata) ++ client.parent)

/-- `strings.TrimSuffix`: drop `suffix` when it is a suffix, else return
the string unchanged. -/
def trimSuffix (l suffix : List Char) : List Char :=
  if suffix.isSuffixOf l then l.take (l.length - suffix.length) else l

/-- `strings.ReplaceAll(s, ".", "")`: drop every separator. -/
def removeDots (l : List Char) : List Char := l.filter (fun c => c != '.')

theorem chunksAux_join (k : Nat) (hk : 1 ≤ k) :
    ∀ fuel l, l.length ≤ fuel → (chunksAux k fuel l).flatten = l := by
  intro fuel
  induction fuel with
  | zero =>
    intro l hl
    have : l = [] := List.eq_nil_of_length_eq_zero (by omega)
    subst this; rfl
  | succ f ih =>
    intro l hl
    cases l with
    | nil => rfl
    | cons c cs =>
      have hstep : chunksAux k (f + 1) (c :: cs) =
          (c :: cs).take k :: chunksAux k f ((c :: cs).drop k) := rfl
      rw [hstep, List.flatten_cons, ih _ (by
        simp only [List.length_drop, List.length_cons] at hl ⊢; omega)]
      exact List.take_append_drop k (c :: cs)

theorem chunks_join (k : Nat) (hk : 1 ≤ k) (l : List Char) :
    (chunks k l).flatten = l :=
  chunksAux_join k hk l.length l le_rfl

theorem chunksAux_eq_nil_iff (k : Nat) (fuel : Nat) (l : List Char) :
    chunksAux k fuel l = [] ↔ l = [] := by
  cases fuel with
  | zero => cases l <;> simp [chunksAux]
  | succ f => cases l <;> simp [chunksAux]

theorem chunksAux_shape (k : Nat) (hk : 1 ≤ k) :
    ∀ fuel l, l.length ≤ fuel →
      (∀ c ∈ chunksAux k fuel l, c.length ≤ k ∧ c ≠ []) := by
  intro fuel
  induction fuel with
  | zero =>
    intro l hl c hc
    have : l = [] := List.eq_nil_of_length_eq_zero (by omega)
    subst this; simp [chunksAux] at hc
  | succ f ih =>
    intro l hl c hc
    cases l with
    | nil => simp [chunksAux] at hc
    | cons x xs =>
      have hstep : chunksAux k (f + 1) (x :: xs) =
          (x :: xs).take k :: chunksAux k f ((x :: xs).drop k) := rfl
      rw [hstep, List.mem_cons] at hc
      rcases hc with hc | hc
      · subst hc
        constructor
        · simp [List.length_take]
        · cases k with
          | zero => omega
          | succ m => simp [List.take_cons]
      · exact ih _ (by
          simp only [List.length_drop, List.length_cons] at hl ⊢; omega) c hc

theorem chunks_shape (k : Nat) (hk : 1 ≤ k) (l : List Char) :
    ∀ c ∈ chunks k l, c.length ≤ k ∧ c ≠ [] :=
  chunksAux_shape k hk l.length l le_rfl

theorem chunksAux_dropLast (k : Nat) (hk : 1 ≤ k) :
    ∀ fuel l, l.length ≤ fuel →
      (∀ c ∈ (chunksAux k fuel l).dropLast, c.length = k) := by
  intro fuel
  induction fuel with
  | zero =>
    intro l hl c hc
    have : l = [] := List.eq_nil_of_length_eq_zero (by omega)
    subst this; simp [chunksAux] at hc
  | succ f ih =>
    intro l hl c hc
    cases l with
    | nil => simp [chunksAux] at hc
    | cons x xs =>
      have hstep : chunksAux k (f + 1) (x :: xs) =
          (x :: xs).take k :: chunksAux k f ((x :: xs).drop k) := rfl
      rw [hstep] at hc
      by_cases hrest : (x :: xs).drop k = []
      · rw [hrest] at hc
        simp [chunksAux] at hc
      · have hrec_ne : chunksAux k f ((x :: xs).drop k) ≠ [] := by
          rw [ne_eq, chunksAux_eq_nil_iff]; exact hrest
        rw [List.dropLast_cons_of_ne_nil hrec_ne, List.mem_cons] at hc
        rcases hc with hc | hc
        · subst hc
          have hklt : k < (x :: xs).length := by
            by_contra hcon
            exact hrest (List.drop_eq_nil_of_le (by omega))
          simp only [List.length_take, List.length_cons]
          simp only [List.length_cons] at hklt
          omega
        · exact ih _ (by
            simp only [List.length_drop, List.length_cons] at hl ⊢; omega) c hc

theorem chunks_dropLast (k : Nat) (hk : 1 ≤ k) (l : List Char) :
    ∀ c ∈ (chunks k l).dropLast, c.length = k :=
  chunksAux_dropLast k hk l.length l le_rfl

theorem chunksAux_count (k : Nat) (hk : 1 ≤ k) :
    ∀ fuel l, l.length ≤ fuel →
      (chunksAux k fuel l).length = (l.length + k - 1) / k := by
  intro fuel
  induction fuel with
  | zero =>
    intro l hl
    have : l = [] := List.eq_nil_of_length_eq_zero (by omega)
    subst this
    simp [chunksAux, Nat.div_eq_of_lt (by omega : k - 1 < k)]
  | succ f ih =>
    intro l hl
    cases l with
    | nil => simp [chunksAux, Nat.div_eq_of_lt (by omega : k - 1 < k)]
    | cons x xs =>
      have hstep : chunksAux k (f + 1) (x :: xs) =
          (x :: xs).take k :: chunksAux k f ((x :: xs).drop k) := rfl
      rw [hstep, List.length_cons,
        ih _ (by simp only [List.length_drop, List.length_cons] at hl ⊢; omega)]
      simp only [List.length_drop, List.length_cons]
      by_cases hge : k ≤ xs.length + 1
      · have e1 : xs.length + 1 - k + k - 1 = xs.length := by omega
        have e2 : xs.length + 1 + k - 1 = xs.length + k := by omega
        rw [e1, e2, Nat.add_div_right _ (by omega : 0 < k)]
      · have e1 : xs.length + 1 - k + k - 1 = k - 1 := by omega
        have e2 : (k - 1) / k = 0 := Nat.div_eq_of_lt (by omega)
        have e3 : (xs.length + 1 + k - 1) / k = 1 :=
          Nat.div_eq_of_lt_le (by omega) (by omega)
        rw [e1, e2, e3]

theorem chunks_count (k : Nat) (hk : 1 ≤ k) (l : List Char) :
    (chunks k l).length = (l.length + k - 1) / k :=
  chunksAux_count k hk l.length l le_rfl

theorem dotJoin_length : ∀ ls : List (List Char),
    (dotJoin ls).length = (ls.map List.length).sum + (ls.length - 1) := by
  intro ls
  induction ls with
  | nil => rfl
  | cons l ls ih =>
    cases ls with
    | nil => simp [dotJoin]
    | cons l' ls' =>
      rw [show dotJoin (l :: l' :: ls') = l ++ '.' :: dotJoin (l' :: ls') from rfl]
      simp only [List.length_append, List.length_cons, ih, List.map_cons,
        List.sum_cons]
      omega

theorem removeDots_dotJoin (ls : List (List Char))
    (h : ∀ l ∈ ls, ∀ c ∈ l, c ≠ '.') :
    removeDots (dotJoin ls) = ls.flatten := by
  induction ls with
  | nil => rfl
  | cons l ls ih =>
    have hfilter : l.filter (fun c => c != '.') = l :=
      List.filter_eq_self.mpr (fun c hc => by
        rw [bne_iff_ne]; exact h l (by simp) c hc)
    cases ls with
    | nil => simpa [dotJoin, removeDots] using hfilter
    | cons l' ls' =>
      rw [show dotJoin (l :: l' :: ls') = l ++ '.' :: dotJoin (l' :: ls') from rfl]
      rw [removeDots, List.filter_append, List.filter_cons_of_neg (by simp)]
      have hrec := ih (fun m hm c hc => h m (by simp [hm]) c hc)
      rw [removeDots] at hrec
      rw [hfilter, hrec]
      simp [List.flatten_cons]

theorem trimSuffix_append (a s : List Char) : trimSuffix (a ++ s) s = a := by
  rw [trimSuffix, if_pos (List.isSuffixOf_iff_suffix.mpr ⟨a, rfl⟩)]
  rw [List.length_append, Nat.add_sub_cancel]
  exact List.take_left a s

/-! ## Envelope (message) serialization

Modelled from the spec: the `dnspb.DNSMessage` protobuf envelope and its
(de)serialization are external to the sources; §3/§6 describe it as a
self-describing, round-trippable binary record holding a message kind, a
declared total size and the fragment bytes.  The model uses a one-byte
kind tag and a four-byte big-endian size header followed by the data.
-/

/-- Message kinds of §3 (data-from-implant, data-to-implant, control/ack). -/
inductive DNSMessageType where
  | dataFromImplant : DNSMessageType
  | dataToImplant : DNSMessageType
  | controlAck : DNSMessageType
deriving DecidableEq

def DNSMessageType.toByte : DNSMessageType → Nat
  | .dataFromImplant => 0
  | .dataToImplant => 1
  | .controlAck => 2

def DNSMessageType.ofByte : Nat → Option DNSMessageType
  | 0 => some .dataFromImplant
  | 1 => some .dataToImplant
  | 2 => some .controlAck
  | _ => none

/-- The envelope record (§3): kind, declared total size, fragment bytes. -/
structure DNSMessage where
  type : DNSMessageType
  size : Nat
  data : List Nat
deriving DecidableEq

/-- Modelled from the spec: envelope serialization (§6) — kind tag, 4-byte
big-endian size, then the fragment bytes. -/
def serializeMessage (m : DNSMessage) : List Nat :=
  m.type.toByte :: m.size / 2 ^ 24 % 256 :: m.size / 2 ^ 16 % 256 ::
    m.size / 2 ^ 8 % 256 :: m.size % 256 :: m.data

/-- Modelled from the spec: envelope deserialization (§6), the inverse of
`serializeMessage`; fails on truncated input or an unknown kind tag. -/
def deserializeMessage : List Nat → Option DNSMessage
  | t :: s3 :: s2 :: s1 :: s0 :: rest =>
    (DNSMessageType.ofByte t).map fun ty =>
      { type := ty, size := ((s3 * 256 + s2) * 256 + s1) * 256 + s0, data := rest }
  | _ => none

theorem ofByte_toByte (ty : DNSMessageType) :
    DNSMessageType.ofByte ty.toByte = some ty := by
  cases ty <;> rfl

theorem toByte_lt (ty : DNSMessageType) : ty.toByte < 256 := by
  cases ty <;> simp [DNSMessageType.toByte]

theorem serializeMessage_bytes_lt (m : DNSMessage)
    (hdata : ∀ b ∈ m.data, b < 256) :
    ∀ b ∈ serializeMessage m, b < 256 := by
  intro b hb
  rw [serializeMessage] at hb
  simp only [List.mem_cons] at hb
  rcases hb with h | h | h | h | h | h
  · exact h ▸ toByte_lt m.type
  · exact h ▸ Nat.mod_lt _ (by omega)
  · exact h ▸ Nat.mod_lt _ (by omega)
  · exact h ▸ Nat.mod_lt _ (by omega)
  · exact h ▸ Nat.mod_lt _ (by omega)
  · exact hdata b h

theorem deserialize_serialize (m : DNSMessage) :
    deserializeMessage (serializeMessage m) =
      some { type := m.type, size := m.size % 2 ^ 32, data := m.data } := by
  rw [serializeMessage, deserializeMessage, ofByte_toByte]
  simp only [Option.map_some']
  congr 1
  congr 1
  omega

/-! ## Message splitter

Modelled from the spec (§4.4): `splitBuffer` (not among the sources)
determines by trial encoding how many raw payload bytes fit within the
per-fragment character budget, slices the payload in order, and for each
fragment builds an envelope from the template, serializes it, encodes it,
and packs it against the parent via the label packer.
-/

/-- Does a fragment made of the first `k` remaining payload bytes fit in
`maxLength` characters once enveloped, serialized and encoded? -/
def fragmentFits (enc : TransportEncoder) (maxLength : Nat)
    (msgType : DNSMessageType) (totalSize : Nat) (remaining : List Nat)
    (k : Nat) : Prop :=
  (encode enc.alphabet (serializeMessage
    { type := msgType, size := totalSize, data := remaining.take k })).length ≤ maxLength

instance (enc maxLength msgType totalSize remaining k) :
    Decidable (fragmentFits enc maxLength msgType totalSize remaining k) :=
  Nat.decLe _ _

/-- The number of payload bytes consumed by the next fragment: the largest
positive `k` (at most the remaining length) whose fragment fits, `0` when
even a single byte does not fit. -/
def bestChunkSize (enc : TransportEncoder) (maxLength : Nat)
    (msgType : DNSMessageType) (totalSize : Nat) (remaining : List Nat) : Nat :=
  Nat.findGreatest
    (fun k => 0 < k ∧ fragmentFits enc maxLength msgType totalSize remaining k)
    remaining.length

/-- Modelled from the spec: the fragment loop of `splitBuffer` (§4.4),
fuel-based so that it reduces in the kernel (`data.length` fuel suffices
since every fragment consumes at least one byte). -/
def splitBufferAux (client : SliverDNSClient) (msgType : DNSMessageType)
    (totalSize : Nat) (enc : TransportEncoder) (maxLength : Nat) :
    Nat → List Nat → Except DNSError (List (List Char))
  | _, [] => .ok []
  | 0, _ :: _ => .error errMsgTooLong
  | fuel + 1, r :: rs =>
    let k := bestChunkSize enc maxLength msgType totalSize (r :: rs)
    if k = 0 then .error errMsgTooLong
    else
      match joinSubdataToParent client (encode enc.alphabet (serializeMessage
        { type := msgType, size := totalSize, data := (r :: rs).take k })) with
      | .error e => .error e
      | .ok domain =>
        match splitBufferAux client msgType totalSize enc maxLength fuel
          ((r :: rs).drop k) with
        | .error e => .error e
        | .ok rest => .ok (domain :: rest)

/-- Modelled from the spec: `splitBuffer(msg, encoder, maxLength, data)`
(§4.4) — the envelope template supplies the kind and declared total size. -/
def splitBuffer (client : SliverDNSClient) (msg : DNSMessage)
    (enc : TransportEncoder) (maxLength : Nat) (data : List Nat) :
    Except DNSError (List (List Char)) :=
  splitBufferAux client msg.type msg.size enc maxLength data.length data

/-- The decoding pipeline applied to one domain by the receiving
counterpart, exactly as in `TestSplitBuffer` (lines 84–98 of the test):
strip the parent suffix, remove the separators, decode, deserialize. -/
def reassembleFragment (enc : TransportEncoder) (parent : List Char)
    (domain : List Char) : Option DNSMessage :=
  (decode enc.alphabet (removeDots (trimSuffix domain parent))).bind deserializeMessage

/-- Reassembly of a fragment sequence in query order: decode every domain
and concatenate the data fields. -/
def reassemble (enc : TransportEncoder) (parent : List Char)
    (domains : List (List Char)) : Option (List Nat) :=
  (domains.mapM (reassembleFragment enc parent)).map
    fun msgs => (msgs.map DNSMessage.data).flatten

theorem encode_mem_alphabet (alphabet : List Char) (hB : 2 ≤ alphabet.length)
    (bs : List Nat) : ∀ c ∈ encode alphabet bs, c ∈ alphabet := by
  intro c hc
  have henc : encode alphabet bs =
      List.replicate (bs.takeWhile (· == 0)).length (alphabet.headD ' ') ++
        (toDigits alphabet.length
          (fromDigits 256 (bs.dropWhile (· == 0)).reverse)).reverse.map
          (fun d => alphabet.getD d ' ') := rfl
  rw [henc, List.mem_append] at hc
  rcases hc with hc | hc
  · rw [List.eq_of_mem_replicate hc]
    cases alphabet with
    | nil => simp at hB
    | cons a as => exact List.mem_cons_self a as
  · rw [List.mem_map] at hc
    obtain ⟨d, hd, hdc⟩ := hc
    have hdlt : d < alphabet.length :=
      toDigits_lt alphabet.length _ hB d (List.mem_reverse.mp hd)
    rw [← hdc, List.getD_eq_getElem _ _ hdlt]
    exact List.getElem_mem hdlt

theorem joinSubdataToParent_ok (client : SliverDNSClient) (sub : List Char)
    (h : sub.length ≤ client.subdataSpace) :
    joinSubdataToParent client sub = .ok (dotJoin (chunks 63 sub) ++ client.parent) := by
  rw [joinSubdataToParent, if_neg (by omega)]

theorem joinSubdataToParent_ok_inv (client : SliverDNSClient) (sub d : List Char)
    (h : joinSubdataToParent client sub = .ok d) :
    sub.length ≤ client.subdataSpace ∧ d = dotJoin (chunks 63 sub) ++ client.parent := by
  by_cases hlen : client.subdataSpace < sub.length
  · rw [joinSubdataToParent, if_pos hlen] at h
    exact absurd h (by simp)
  · rw [joinSubdataToParent, if_neg hlen] at h
    exact ⟨by omega, (Except.ok.inj h).symm⟩

theorem transport_decode_encode (e : TransportEncoder) (bs : List Nat)
    (hbs : ∀ b ∈ bs, b < 256) :
    decode e.alphabet (encode e.alphabet bs) = some bs :=
  decode_encode e.alphabet (alphabet_nodup e) (alphabet_two_le e) bs hbs

theorem reassembleFragment_roundtrip (enc : TransportEncoder)
    (client : SliverDNSClient) (m : DNSMessage)
    (hdata : ∀ b ∈ m.data, b < 256) (domain : List Char)
    (hjoin : joinSubdataToParent client
      (encode enc.alphabet (serializeMessage m)) = .ok domain) :
    reassembleFragment enc client.parent domain =
      some { type := m.type, size := m.size % 2 ^ 32, data := m.data } := by
  obtain ⟨hlen, hdom⟩ := joinSubdataToParent_ok_inv _ _ _ hjoin
  subst hdom
  rw [reassembleFragment, trimSuffix_append]
  have hmem : ∀ l ∈ chunks 63 (encode enc.alphabet (serializeMessage m)),
      ∀ c ∈ l, c ≠ '.' := by
    intro l hl c hc hdot
    have hcmem : c ∈ (chunks 63 (encode enc.alphabet (serializeMessage m))).flatten :=
      List.mem_flatten.mpr ⟨l, hl, hc⟩
    rw [chunks_join 63 (by omega)] at hcmem
    have hmem2 := encode_mem_alphabet enc.alphabet (alphabet_two_le enc) _ c hcmem
    rw [hdot] at hmem2
    exact alphabet_no_dot enc hmem2
  rw [removeDots_dotJoin _ hmem, chunks_join 63 (by omega),
    transport_decode_encode enc _ (serializeMessage_bytes_lt m hdata),
    Option.some_bind, deserialize_serialize]

theorem splitBufferAux_roundtrip (client : SliverDNSClient)
    (msgType : DNSMessageType) (totalSize : Nat) (enc : TransportEncoder)
    (maxLength : Nat) :
    ∀ fuel data, (∀ b ∈ data, b < 256) → ∀ domains,
      splitBufferAux client msgType totalSize enc maxLength fuel data =
        .ok domains →
      reassemble enc client.parent domains = some data := by
  intro fuel
  induction fuel with
  | zero =>
    intro data hdata domains h
    cases data with
    | nil =>
      rw [show splitBufferAux client msgType totalSize enc maxLength 0 [] =
        .ok [] from rfl] at h
      rw [← Except.ok.inj h]
      rfl
    | cons r rs => exact absurd h (by simp [splitBufferAux])
  | succ f ih =>
    intro data hdata domains h
    cases data with
    | nil =>
      rw [show splitBufferAux client msgType totalSize enc maxLength (f + 1) [] =
        .ok [] from rfl] at h
      rw [← Except.ok.inj h]
      rfl
    | cons r rs =>
      rw [show splitBufferAux client msgType totalSize enc maxLength (f + 1) (r :: rs) =
        (if bestChunkSize enc maxLength msgType totalSize (r :: rs) = 0 then
          .error errMsgTooLong
        else
          match joinSubdataToParent client (encode enc.alphabet (serializeMessage
            { type := msgType, size := totalSize,
              data := (r :: rs).take (bestChunkSize enc maxLength msgType totalSize (r :: rs)) })) with
          | .error e => .error e
          | .ok domain =>
            match splitBufferAux client msgType totalSize enc maxLength f
              ((r :: rs).drop (bestChunkSize enc maxLength msgType totalSize (r :: rs))) with
            | .error e => .error e
            | .ok rest => .ok (domain :: rest)) from rfl] at h
      by_cases hk0 : bestChunkSize enc maxLength msgType totalSize (r :: rs) = 0
      · rw [if_pos hk0] at h
        exact absurd h (by simp)
      · rw [if_neg hk0] at h
        cases hjoin : joinSubdataToParent client (encode enc.alphabet (serializeMessage
            { type := msgType, size := totalSize,
              data := (r :: rs).take (bestChunkSize enc maxLength msgType totalSize (r :: rs)) })) with
        | error e => rw [hjoin] at h; exact absurd h (by simp)
        | ok domain =>
          rw [hjoin] at h
          cases hrec : splitBufferAux client msgType totalSize enc maxLength f
              ((r :: rs).drop (bestChunkSize enc maxLength msgType totalSize (r :: rs))) with
          | error e => rw [hrec] at h; exact absurd h (by simp)
          | ok rest =>
            rw [hrec] at h
            have hdomains : domains = domain :: rest := (Except.ok.inj h).symm
            subst hdomains
            have hfrag := reassembleFragment_roundtrip enc client
              { type := msgType, size := totalSize,
                data := (r :: rs).take (bestChunkSize enc maxLength msgType totalSize (r :: rs)) }
              (fun b hb => hdata b (List.mem_of_mem_take hb)) domain hjoin
            have hrest := ih _ (fun b hb => hdata b (List.mem_of_mem_drop hb)) rest hrec
            rw [reassemble] at hrest ⊢
            cases hmm : (rest.mapM (reassembleFragment enc client.parent)) with
            | none => rw [hmm] at hrest; exact absurd hrest (by simp)
            | some msgs =>
              rw [hmm] at hrest
              simp only [Option.map_some'] at hrest
              have hflat : (msgs.map DNSMessage.data).flatten =
                  (r :: rs).drop (bestChunkSize enc maxLength msgType totalSize (r :: rs)) :=
                Option.some.inj hrest
              have hcons : (domain :: rest).mapM (reassembleFragment enc client.parent) =
                  some (({ type := msgType, size := totalSize % 2 ^ 32,
                           data := (r :: rs).take
                             (bestChunkSize enc maxLength msgType totalSize (r :: rs)) } :
                      DNSMessage) :: msgs) := by
                rw [List.mapM_cons, hfrag, hmm]
                rfl
              rw [hcons]
              simp only [Option.map_some']
              congr 1
              rw [List.map_cons, List.flatten_cons]
              show (r :: rs).take (bestChunkSize enc maxLength msgType totalSize (r :: rs)) ++
                (msgs.map DNSMessage.data).flatten = r :: rs
              rw [hflat, List.take_append_drop]

theorem splitBuffer_roundtrip_aux (client : SliverDNSClient) (msg : DNSMessage)
    (enc : TransportEncoder) (maxLength : Nat) (data : List Nat)
    (domains : List (List Char)) (hdata : ∀ b ∈ data, b < 256)
    (h : splitBuffer client msg enc maxLength data = .ok domains) :
    reassemble enc client.parent domains = some data :=
  splitBufferAux_roundtrip client msg.type msg.size enc maxLength data.length
    data hdata domains h

/-! ## Capacity arithmetic -/

theorem subdataSpace_le (parentLength : Nat) :
    subdataSpace parentLength ≤ 254 - parentLength := by
  rw [subdataSpace]
  omega

theorem subdataSpace_cost (parentLength : Nat) :
    subdataSpace parentLength + (subdataSpace parentLength + 62) / 63 ≤
      254 - parentLength := by
  rw [subdataSpace]
  omega

theorem subdataSpace_cost_above (parentLength : Nat) :
    254 - parentLength <
      (subdataSpace parentLength + 1) + (subdataSpace parentLength + 1 + 62) / 63 := by
  rw [subdataSpace]
  omega

/-- An arrangement of `c` data characters into DNS labels: every label
nonempty, at most 63 characters, contents summing to `c`. -/
def IsLabelArrangement (c : Nat) (ls : List Nat) : Prop :=
  (∀ l ∈ ls, 0 < l ∧ l ≤ 63) ∧ ls.sum = c

instance (c : Nat) (ls : List Nat) : Decidable (IsLabelArrangement c ls) := by
  unfold IsLabelArrangement
  exact inferInstance

/-- `c` data characters fit under a parent of length `parentLength` when
separators are counted as claim C3's prose counts them: one separator per
label except the label adjacent to the parent. -/
def CanArrangeProse (parentLength c : Nat) : Prop :=
  ∃ ls, IsLabelArrangement c ls ∧ c + (ls.length - 1) + parentLength ≤ 254

/-- `c` data characters fit under a parent of length `parentLength` when
every label costs its content plus one separator — the accounting used by
the test arithmetic (`[64 - 64 - 64 - 47]` blocks). -/
def CanArrangeCharged (parentLength c : Nat) : Prop :=
  ∃ ls, IsLabelArrangement c ls ∧ c + ls.length + parentLength ≤ 254

theorem arrangement_length_lower (c : Nat) (ls : List Nat)
    (h : IsLabelArrangement c ls) : (c + 62) / 63 ≤ ls.length := by
  obtain ⟨hl, hsum⟩ := h
  have h0 := List.sum_le_card_nsmul ls 63 (fun x hx => (hl x hx).2)
  simp only [smul_eq_mul] at h0
  have h2 : (c + 62) / 63 ≤ (63 * ls.length + 62) / 63 :=
    Nat.div_le_div_right (by omega)
  have h3 : (63 * ls.length + 62) / 63 = ls.length := by
    rw [Nat.mul_add_div (by omega)]
    norm_num
  omega

theorem arrangement_exists (c : Nat) :
    ∃ ls, IsLabelArrangement c ls ∧ ls.length = (c + 62) / 63 := by
  refine ⟨(chunks 63 (List.replicate c 'a')).map List.length, ⟨?_, ?_⟩, ?_⟩
  · intro l hl
    rw [List.mem_map] at hl
    obtain ⟨ch, hch, hlen⟩ := hl
    have := chunks_shape 63 (by omega) (List.replicate c 'a') ch hch
    have hpos : 0 < ch.length := List.length_pos.mpr this.2
    omega
  · rw [← List.length_flatten, chunks_join 63 (by omega), List.length_replicate]
  · rw [List.length_map, chunks_count 63 (by omega), List.length_replicate]
    omega

theorem canArrangeCharged_iff (parentLength c : Nat) (hp : parentLength ≤ 253) :
    CanArrangeCharged parentLength c ↔ c ≤ subdataSpace parentLength := by
  constructor
  · intro ⟨ls, harr, hcost⟩
    by_contra hgt
    push_neg at hgt
    have hlower := arrangement_length_lower c ls harr
    have habove := subdataSpace_cost_above parentLength
    have hmono : (subdataSpace parentLength + 1 + 62) / 63 ≤ (c + 62) / 63 :=
      Nat.div_le_div_right (by omega)
    omega
  · intro hle
    obtain ⟨ls, harr, hlen⟩ := arrangement_exists c
    refine ⟨ls, harr, ?_⟩
    have hcost := subdataSpace_cost parentLength
    have hmono : (c + 62) / 63 ≤ (subdataSpace parentLength + 62) / 63 :=
      Nat.div_le_div_right (by omega)
    omega

/-! ## Shape and length of packed names -/

theorem joinSubdataToParent_length (client : SliverDNSClient) (sub : List Char)
    (domain : List Char) (h : joinSubdataToParent client sub = .ok domain) :
    domain.length = sub.length + ((sub.length + 62) / 63 - 1) + client.parent.length := by
  obtain ⟨hlen, hdom⟩ := joinSubdataToParent_ok_inv _ _ _ h
  subst hdom
  rw [List.length_append, dotJoin_length, chunks_count 63 (by omega)]
  have hsum : ((chunks 63 sub).map List.length).sum = sub.length := by
    rw [← List.length_flatten, chunks_join 63 (by omega)]
  rw [hsum]
  omega

theorem joinSubdataToParent_le_254 (parent : List Char) (hp : parent.length ≤ 253)
    (sub domain : List Char)
    (h : joinSubdataToParent (newDNSClient parent) sub = .ok domain) :
    domain.length ≤ 254 := by
  obtain ⟨hlen, _⟩ := joinSubdataToParent_ok_inv _ _ _ h
  have hcs : (newDNSClient parent).subdataSpace = subdataSpace parent.length := rfl
  have hcp : (newDNSClient parent).parent = parent := rfl
  rw [hcs] at hlen
  have hlen2 := joinSubdataToParent_length _ _ _ h
  rw [hcp] at hlen2
  have hcost := subdataSpace_cost parent.length
  have hmono : (sub.length + 62) / 63 ≤ (subdataSpace parent.length + 62) / 63 :=
    Nat.div_le_div_right (by omega)
  omega

theorem joinSubdataToParent_shape (client : SliverDNSClient) (sub : List Char)
    (domain : List Char) (h : joinSubdataToParent client sub = .ok domain)
    (hne : sub ≠ []) :
    ∃ ls : List (List Char), ls ≠ [] ∧
      (∀ l ∈ ls, 0 < l.length ∧ l.length ≤ 63 ∧ ∀ c ∈ l, c ∈ sub) ∧
      domain = dotJoin ls ++ client.parent := by
  obtain ⟨hlen, hdom⟩ := joinSubdataToParent_ok_inv _ _ _ h
  refine ⟨chunks 63 sub, ?_, ?_, hdom⟩
  · rw [chunks, ne_eq, chunksAux_eq_nil_iff]
    exact hne
  · intro l hl
    have hshape := chunks_shape 63 (by omega) sub l hl
    refine ⟨List.length_pos.mpr hshape.2, hshape.1, ?_⟩
    intro c hc
    have : c ∈ (chunks 63 sub).flatten := List.mem_flatten.mpr ⟨l, hl, hc⟩
    rwa [chunks_join 63 (by omega)] at this

/-! ## Resolver pool and dispatch

Modelled from the spec (§4.5): resolver descriptors carry a retry budget
and a mutable error counter; dispatch tries resolvers ordered by ascending
error count (ties broken by configuration order), spends each resolver's
full retry budget before moving on, and reports exhaustion only after the
whole pool is spent.  Query outcomes are supplied by an oracle mapping
(resolver id, attempt index) to success/failure.
-/

/-- The per-resolver dispatch state (§3, §4.5): address, retry budget and
error counter (timeouts and encoder capability flags are irrelevant to the
ordering/exhaustion claims). -/
structure ResolverMeta where
  address : Nat
  retries : Nat
  errors : Nat
deriving DecidableEq

/-- Ranking relation: ascending error count, ties broken by configuration
order (the `Nat` component is the configuration index). -/
def resolverOrder (a b : Nat × ResolverMeta) : Prop :=
  a.2.errors < b.2.errors ∨ (a.2.errors = b.2.errors ∧ a.1 ≤ b.1)

instance : DecidableRel resolverOrder := fun a b => by
  unfold resolverOrder
  exact inferInstance

instance : IsTotal (Nat × ResolverMeta) resolverOrder :=
  ⟨fun a b => by unfold resolverOrder; omega⟩

instance : IsTrans (Nat × ResolverMeta) resolverOrder :=
  ⟨fun a b c hab hbc => by unfold resolverOrder at *; omega⟩

/-- The selection order of the pool: resolvers paired with their
configuration index, sorted by `resolverOrder`. -/
def rankResolvers (pool : List ResolverMeta) : List (Nat × ResolverMeta) :=
  List.insertionSort resolverOrder pool.enum

/-- Attempts against one resolver: try attempt indices `i, i+1, …` until
the oracle reports success or the budget is spent; returns the attempt
trace and whether a query succeeded. -/
def attemptsOnAux (oracle : Nat → Nat → Bool) (rid : Nat) :
    Nat → Nat → List (Nat × Nat) × Bool
  | _, 0 => ([], false)
  | i, budget + 1 =>
    if oracle rid i then ([(rid, i)], true)
    else
      let r := attemptsOnAux oracle rid (i + 1) budget
      ((rid, i) :: r.1, r.2)

def attemptsOn (oracle : Nat → Nat → Bool) (rid budget : Nat) :
    List (Nat × Nat) × Bool :=
  attemptsOnAux oracle rid 0 budget

/-- Modelled from the spec: dispatch over the ranked pool (§4.5) — spend
each resolver's retry budget in ranking order; `none` means the pool is
exhausted. -/
def dispatchRanked (oracle : Nat → Nat → Bool) :
    List (Nat × ResolverMeta) → List (Nat × Nat) × Option Nat
  | [] => ([], none)
  | (rid, m) :: rest =>
    let a := attemptsOn oracle rid m.retries
    if a.2 then (a.1, some rid)
    else
      let r := dispatchRanked oracle rest
      (a.1 ++ r.1, r.2)

/-- Modelled from the spec: `resolve` dispatch entry point (§4.5). -/
def dispatch (pool : List ResolverMeta) (oracle : Nat → Nat → Bool) :
    List (Nat × Nat) × Option Nat :=
  dispatchRanked oracle (rankResolvers pool)

theorem attemptsOnAux_fail_length (oracle : Nat → Nat → Bool) (rid : Nat) :
    ∀ budget i, (attemptsOnAux oracle rid i budget).2 = false →
      (attemptsOnAux oracle rid i budget).1.length = budget := by
  intro budget
  induction budget with
  | zero => intro i _; rfl
  | succ n ih =>
    intro i h
    by_cases ho : oracle rid i
    · rw [show attemptsOnAux oracle rid i (n + 1) = ([(rid, i)], true) from by
        simp [attemptsOnAux, ho]] at h
      simp at h
    · have hstep : attemptsOnAux oracle rid i (n + 1) =
          ((rid, i) :: (attemptsOnAux oracle rid (i + 1) n).1,
            (attemptsOnAux oracle rid (i + 1) n).2) := by
        simp [attemptsOnAux, ho]
      rw [hstep] at h ⊢
      simp only [List.length_cons]
      rw [ih (i + 1) h]

theorem dispatchRanked_exhaust_length (oracle : Nat → Nat → Bool) :
    ∀ L : List (Nat × ResolverMeta),
      (dispatchRanked oracle L).2 = none →
      (dispatchRanked oracle L).1.length = (L.map (fun x => x.2.retries)).sum := by
  intro L
  induction L with
  | nil => intro _; rfl
  | cons hd tl ih =>
    intro h
    obtain ⟨rid, m⟩ := hd
    by_cases ha : (attemptsOn oracle rid m.retries).2
    · rw [show dispatchRanked oracle ((rid, m) :: tl) =
        ((attemptsOn oracle rid m.retries).1, some rid) from by
          simp [dispatchRanked, ha]] at h
      simp at h
    · have hstep : dispatchRanked oracle ((rid, m) :: tl) =
          ((attemptsOn oracle rid m.retries).1 ++ (dispatchRanked oracle tl).1,
            (dispatchRanked oracle tl).2) := by
        simp [dispatchRanked, ha]
      rw [hstep] at h ⊢
      simp only [List.length_append, List.map_cons, List.sum_cons]
      have hlen := attemptsOnAux_fail_length oracle rid m.retries 0
        (by simpa [attemptsOn] using ha)
      have hfold : (attemptsOn oracle rid m.retries).1.length = m.retries := by
        rw [attemptsOn]
        exact hlen
      rw [ih h, hfold]

theorem rankResolvers_retries_sum (pool : List ResolverMeta) :
    ((rankResolvers pool).map (fun x => x.2.retries)).sum =
      (pool.map (fun r => r.retries)).sum := by
  have hperm : List.Perm (rankResolvers pool) pool.enum :=
    List.perm_insertionSort resolverOrder pool.enum
  have h1 : ((rankResolvers pool).map (fun x => x.2.retries)).sum =
      ((pool.enum.map (fun x => x.2.retries)).sum) :=
    (hperm.map (fun x => x.2.retries)).sum_eq
  rw [h1]
  have h2 : pool.enum.map (fun x => x.2.retries) =
      (pool.enum.map Prod.snd).map (fun r => r.retries) := by
    rw [List.map_map]
    rfl
  rw [h2, List.enum_map_snd]

theorem rankResolvers_sorted (pool : List ResolverMeta) :
    List.Sorted resolverOrder (rankResolvers pool) :=
  List.sorted_insertionSort resolverOrder pool.enum

theorem rankResolvers_order (pool : List ResolverMeta) (p q : Nat)
    (hp : p < (rankResolvers pool).length) (hq : q < (rankResolvers pool).length)
    (hlt : ((rankResolvers pool).get ⟨q, hq⟩).2.errors <
      ((rankResolvers pool).get ⟨p, hp⟩).2.errors) :
    q < p := by
  rcases Nat.lt_trichotomy p q with hpq | hpq | hpq
  · have := (rankResolvers_sorted pool).rel_get_of_lt
      (show (⟨p, hp⟩ : Fin _) < ⟨q, hq⟩ from hpq)
    unfold resolverOrder at this
    omega
  · subst hpq
    omega
  · exact hpq

theorem encode_ne_nil (alphabet : List Char) (hB : 2 ≤ alphabet.length)
    (bs : List Nat) (hne : bs ≠ []) : encode alphabet bs ≠ [] := by
  intro hnil
  have henc : encode alphabet bs =
      List.replicate (bs.takeWhile (· == 0)).length (alphabet.headD ' ') ++
        (toDigits alphabet.length
          (fromDigits 256 (bs.dropWhile (· == 0)).reverse)).reverse.map
          (fun d => alphabet.getD d ' ') := rfl
  rw [henc, List.append_eq_nil] at hnil
  obtain ⟨h1, h2⟩ := hnil
  have htw : bs.takeWhile (· == 0) = [] := by
    have := congrArg List.length h1
    simp only [List.length_replicate, List.length_nil] at this
    exact List.eq_nil_of_length_eq_zero this
  have hdw : bs.dropWhile (· == 0) = bs := by
    have hsplit := List.takeWhile_append_dropWhile (· == 0) bs
    rw [htw] at hsplit
    simpa using hsplit
  rw [List.map_eq_nil_iff, List.reverse_eq_nil_iff] at h2
  have hn0 : fromDigits 256 (bs.dropWhile (· == 0)).reverse = 0 := by
    by_contra hcon
    rw [toDigits_eq_digits _ _ hB] at h2
    exact Nat.digits_ne_nil_iff_ne_zero.mpr hcon h2
  have hall := fromDigits_eq_zero 256 (by omega) _ hn0
  cases bs with
  | nil => exact hne rfl
  | cons b bs' =>
    have hb0 : b = 0 := by
      apply hall
      rw [hdw]
      simp
    have hhd := List.takeWhile_eq_nil_iff.mp htw (by simp)
    simp [hb0] at hhd

theorem splitBufferAux_domains_shape (client : SliverDNSClient)
    (msgType : DNSMessageType) (totalSize : Nat) (enc : TransportEncoder)
    (maxLength : Nat) :
    ∀ fuel data domains,
      splitBufferAux client msgType totalSize enc maxLength fuel data =
        .ok domains →
      ∀ d ∈ domains, ∃ sub : List Char, sub ≠ [] ∧
        (∀ c ∈ sub, c ∈ enc.alphabet) ∧
        joinSubdataToParent client sub = .ok d := by
  intro fuel
  induction fuel with
  | zero =>
    intro data domains h d hd
    cases data with
    | nil =>
      rw [show splitBufferAux client msgType totalSize enc maxLength 0 [] =
        .ok [] from rfl] at h
      rw [← Except.ok.inj h] at hd
      simp at hd
    | cons r rs => exact absurd h (by simp [splitBufferAux])
  | succ f ih =>
    intro data domains h d hd
    cases data with
    | nil =>
      rw [show splitBufferAux client msgType totalSize enc maxLength (f + 1) [] =
        .ok [] from rfl] at h
      rw [← Except.ok.inj h] at hd
      simp at hd
    | cons r rs =>
      rw [show splitBufferAux client msgType totalSize enc maxLength (f + 1) (r :: rs) =
        (if bestChunkSize enc maxLength msgType totalSize (r :: rs) = 0 then
          .error errMsgTooLong
        else
          match joinSubdataToParent client (encode enc.alphabet (serializeMessage
            { type := msgType, size := totalSize,
              data := (r :: rs).take (bestChunkSize enc maxLength msgType totalSize (r :: rs)) })) with
          | .error e => .error e
          | .ok domain =>
            match splitBufferAux client msgType totalSize enc maxLength f
              ((r :: rs).drop (bestChunkSize enc maxLength msgType totalSize (r :: rs))) with
            | .error e => .error e
            | .ok rest => .ok (domain :: rest)) from rfl] at h
      by_cases hk0 : bestChunkSize enc maxLength msgType totalSize (r :: rs) = 0
      · rw [if_pos hk0] at h
        exact absurd h (by simp)
      · rw [if_neg hk0] at h
        cases hjoin : joinSubdataToParent client (encode enc.alphabet (serializeMessage
            { type := msgType, size := totalSize,
              data := (r :: rs).take (bestChunkSize enc maxLength msgType totalSize (r :: rs)) })) with
        | error e => rw [hjoin] at h; exact absurd h (by simp)
        | ok domain =>
          rw [hjoin] at h
          cases hrec : splitBufferAux client msgType totalSize enc maxLength f
              ((r :: rs).drop (bestChunkSize enc maxLength msgType totalSize (r :: rs))) with
          | error e => rw [hrec] at h; exact absurd h (by simp)
          | ok rest =>
            rw [hrec] at h
            have hdomains : domains = domain :: rest := (Except.ok.inj h).symm
            subst hdomains
            rw [List.mem_cons] at hd
            rcases hd with hd | hd
            · subst hd
              refine ⟨encode enc.alphabet (serializeMessage
                { type := msgType, size := totalSize,
                  data := (r :: rs).take
                    (bestChunkSize enc maxLength msgType totalSize (r :: rs)) }), ?_, ?_, hjoin⟩
              · exact encode_ne_nil enc.alphabet (alphabet_two_le enc) _ (by
                  rw [serializeMessage]
                  simp)
              · exact encode_mem_alphabet enc.alphabet (alphabet_two_le enc) _
            · exact ih _ rest hrec d hd

/-! ## Windows extension loader

From `implant/sliver/extension/extension_windows.go` (in the sources).
`Call`'s side effects (export lookup, native invocation, callback-driven
`onFinish` invocations) are made explicit as a trace so control flow can be
stated; the native module's behaviour is supplied by a `ModuleEnv`.
-/

/-- Observable effects of `WindowsExtension.Call` (lines 86–132). -/
inductive CallEffect where
  | exportLookup : List Char → CallEffect
  | invokeExport : CallEffect
  | onFinishCalled : List Nat → CallEffect
deriving DecidableEq

/-- Errors returned by `Call`. -/
inductive CallError where
  | moduleNotLoaded : CallError
  | procNotFound : CallError
  | syscallFailed : Nat → CallError
deriving DecidableEq

/-- What the loaded native module would do: export resolution
(`module.ProcAddressByName`), the buffers the DLL hands to
`extensionCallback` during `Run`, and the syscall errno. -/
structure ModuleEnv where
  procAddress : List Char → Option Nat
  callbackBuffers : List (List Nat)
  errno : Nat

/-- `WindowsExtension` (lines 39–47): `module` is `none` until `Load`
succeeds. -/
structure WindowsExtension where
  id : List Char
  data : List Nat
  module : Option Nat
  arch : List Char
  initName : List Char

/-- `NewWindowsExtension` (lines 49–56): the module pointer starts nil. -/
def NewWindowsExtension (data : List Nat) (id arch initName : List Char) :
    WindowsExtension :=
  { id := id, data := data, module := none, arch := arch, initName := initName }

/-- `WindowsExtension.Call` (lines 86–116): returns the "module not
loaded" error before any export lookup when `module` is nil; otherwise it
looks up the export (failing if absent), invokes it, and `extensionCallback`
(lines 120–132) invokes `onFinish` once per nonempty buffer the DLL passes
back; a nonzero errno becomes an error. -/
def WindowsExtension.Call (w : WindowsExtension) (env : ModuleEnv)
    (exportName : List Char) (arguments : List Nat) :
    List CallEffect × Except CallError Unit :=
  match w.module with
  | none => ([], .error .moduleNotLoaded)
  | some _ =>
    match env.procAddress exportName with
    | none => ([.exportLookup exportName], .error .procNotFound)
    | some _ =>
      ([.exportLookup exportName, .invokeExport] ++
        (env.callbackBuffers.filter (fun b => b.length != 0)).map
          CallEffect.onFinishCalled,
        if env.errno = 0 then .ok () else .error (.syscallFailed env.errno))

/-! ## Concrete test fixtures (from dnsclient_test.go) -/

/-- `parent1 = ".1.example.com."` (line 40). -/
def parent1 : List Char := ".1.example.com.".toList

/-- `parent2 = ".something-longer.example.com."` (line 41). -/
def parent2 : List Char := ".something-longer.example.com.".toList

/-- `parent3 = ".something-even-longer.example.computer."` (line 42). -/
def parent3 : List Char := ".something-even-longer.example.computer.".toList

/-- `parentMax` (line 47): `".{63×a}.{63×b}.{24×c}."`, 154 characters. -/
def parentMax : List Char :=
  '.' :: (List.replicate 63 'a' ++ '.' :: (List.replicate 63 'b' ++
    '.' :: (List.replicate 24 'c' ++ ['.'])))

/-- `strings.Repeat("1234567890", 9)` (line 171), 90 characters. -/
def sub90 : List Char := (List.replicate 9 "1234567890".toList).flatten

/-- `strings.Repeat("1234567890", 10)` (line 209), 100 characters. -/
def sub100 : List Char := (List.replicate 10 "1234567890".toList).flatten

/-- The expected packed name for `sub90` under `parent1` (line 178). -/
def expected90 : List Char :=
  ("123456789012345678901234567890123456789012345678901234567890123" ++
    ".456789012345678901234567890.1.example.com.").toList

example : parent1.length = 15 := by decide
example : parentMax.length = 154 := by decide
example : joinSubdataToParent (newDNSClient parent1) sub90 = .ok expected90 := rfl

/-! ## Claims -/

/-- C1: for every payload, envelope template, encoder and capacity value,
whenever the message splitter returns a sequence of domain names, stripping
the parent suffix from each name, removing the label separators, decoding
with the same encoder, deserializing the envelope and concatenating the
data fields in the order the names were produced reconstructs the payload
byte-for-byte. -/
theorem split_roundtrip_reconstructs_payload (client : SliverDNSClient)
    (msg : DNSMessage) (enc : TransportEncoder) (maxLength : Nat)
    (b : List Nat) (domains : List (List Char))
    (hb : ∀ x ∈ b, x < 256)
    (h : splitBuffer client msg enc maxLength b = .ok domains) :
    reassemble enc client.parent domains = some b :=
  splitBuffer_roundtrip_aux client msg enc maxLength b domains hb h

/-- Witness for C1: a concrete 3-byte payload under `parent1` with the
Base58 encoder splits into one fragment query, and reassembly recovers it. -/
theorem split_roundtrip_reconstructs_payload_witness :
    (∀ x ∈ [1, 2, 3], x < 256) ∧
    splitBuffer (newDNSClient parent1)
      { type := .dataFromImplant, size := 3, data := [] }
      TransportEncoder.base58 235 [1, 2, 3] =
      .ok ["11115TJUr.1.example.com.".toList] ∧
    reassemble TransportEncoder.base58 parent1
      ["11115TJUr.1.example.com.".toList] = some [1, 2, 3] :=
  ⟨by decide, rfl,
    split_roundtrip_reconstructs_payload (newDNSClient parent1)
      { type := .dataFromImplant, size := 3, data := [] }
      TransportEncoder.base58 235 [1, 2, 3]
      ["11115TJUr.1.example.com.".toList] (by decide) rfl⟩

/-- C2: the capacity computed at client construction is exactly 235 for the
15-character `parent1`, 220 for the 30-character `parent2`, 210 for the
40-character `parent3` and 98 for the 154-character `parentMax`. -/
theorem subdataSpace_concrete_values :
    parent1.length = 15 ∧ (newDNSClient parent1).subdataSpace = 235 ∧
    parent2.length = 30 ∧ (newDNSClient parent2).subdataSpace = 220 ∧
    parent3.length = 40 ∧ (newDNSClient parent3).subdataSpace = 210 ∧
    parentMax.length = 154 ∧ (newDNSClient parentMax).subdataSpace = 98 := by
  decide

/-- Counterexample to C3's maximality: under the claim's own separator
accounting (each additional data label costs one separator, the label
adjacent to the parent costs none), 236 data characters can be arranged in
labels of at most 63 characters within the 254-character limit above
`parent1` — labels `[63, 63, 63, 47]` give `236 + 3 + 15 = 254` — yet the
computed capacity is only 235, so the computed capacity is not maximal in
the claim's sense. -/
theorem capacity_not_prose_maximal :
    (newDNSClient parent1).subdataSpace = 235 ∧
    CanArrangeProse parent1.length 236 ∧
    ¬(∀ c, CanArrangeProse parent1.length c →
      c ≤ (newDNSClient parent1).subdataSpace) := by
  refine ⟨by decide, ⟨[63, 63, 63, 47], by decide, by decide⟩, ?_⟩
  intro hmax
  have h236 := hmax 236 ⟨[63, 63, 63, 47], by decide, by decide⟩
  have : (newDNSClient parent1).subdataSpace = 235 := by decide
  omega

/-- C3 amended: for every valid parent, the computed capacity is at most
`254 - len(p)`, and it is maximal when every data label — including the one
adjacent to the parent — costs its content plus one separator, which is the
accounting the test arithmetic uses (`[64 - 64 - 64 - 47]` blocks). -/
theorem capacity_le_and_charged_maximal (parent : List Char)
    (hp : parent.length ≤ 253) :
    (newDNSClient parent).subdataSpace ≤ 254 - parent.length ∧
    ∀ c, CanArrangeCharged parent.length c ↔
      c ≤ (newDNSClient parent).subdataSpace := by
  have hcs : (newDNSClient parent).subdataSpace = subdataSpace parent.length := rfl
  rw [hcs]
  exact ⟨subdataSpace_le parent.length,
    fun c => canArrangeCharged_iff parent.length c hp⟩

/-- Witness for the amended C3, at `parent1`. -/
theorem capacity_le_and_charged_maximal_witness :
    parent1.length ≤ 253 ∧
    ((newDNSClient parent1).subdataSpace ≤ 254 - parent1.length ∧
      ∀ c, CanArrangeCharged parent1.length c ↔
        c ≤ (newDNSClient parent1).subdataSpace) :=
  ⟨by decide, capacity_le_and_charged_maximal parent1 (by decide)⟩

/-- C4: for every subdata of encoded (separator-free) characters of length
at most the capacity, the label packer succeeds and returns the name formed
by the greedy 63-character labels joined with separators and suffixed with
the parent; stripping the parent suffix and removing the separators
reconstructs the subdata exactly, and every label except the final one is
exactly 63 characters (the final one is the shorter remainder). -/
theorem pack_roundtrip (parent sub : List Char)
    (hlen : sub.length ≤ (newDNSClient parent).subdataSpace)
    (hdots : ∀ c ∈ sub, c ≠ '.') :
    ∃ domain, joinSubdataToParent (newDNSClient parent) sub = .ok domain ∧
      removeDots (trimSuffix domain parent) = sub ∧
      domain = dotJoin (chunks 63 sub) ++ parent ∧
      (∀ l ∈ (chunks 63 sub).dropLast, l.length = 63) ∧
      (∀ l ∈ chunks 63 sub, 0 < l.length ∧ l.length ≤ 63) ∧
      (chunks 63 sub).flatten = sub := by
  have hok := joinSubdataToParent_ok (newDNSClient parent) sub hlen
  refine ⟨dotJoin (chunks 63 sub) ++ (newDNSClient parent).parent, hok, ?_, rfl, ?_, ?_, ?_⟩
  · have hcp : (newDNSClient parent).parent = parent := rfl
    rw [hcp, trimSuffix_append, removeDots_dotJoin, chunks_join 63 (by omega)]
    intro l hl c hc
    apply hdots
    have : c ∈ (chunks 63 sub).flatten := List.mem_flatten.mpr ⟨l, hl, hc⟩
    rwa [chunks_join 63 (by omega)] at this
  · exact chunks_dropLast 63 (by omega) sub
  · intro l hl
    have := chunks_shape 63 (by omega) sub l hl
    exact ⟨List.length_pos.mpr this.2, this.1⟩
  · exact chunks_join 63 (by omega) sub

/-- Witness for C4: 90 repeated-digit characters against `parent1` pack to
the expected name with a first label of exactly 63 characters and a second
of exactly 27. -/
theorem pack_roundtrip_witness :
    (sub90.length ≤ (newDNSClient parent1).subdataSpace ∧ ∀ c ∈ sub90, c ≠ '.') ∧
    (∃ domain, joinSubdataToParent (newDNSClient parent1) sub90 = .ok domain ∧
      removeDots (trimSuffix domain parent1) = sub90 ∧
      domain = dotJoin (chunks 63 sub90) ++ parent1 ∧
      (∀ l ∈ (chunks 63 sub90).dropLast, l.length = 63) ∧
      (∀ l ∈ chunks 63 sub90, 0 < l.length ∧ l.length ≤ 63) ∧
      (chunks 63 sub90).flatten = sub90) ∧
    joinSubdataToParent (newDNSClient parent1) sub90 = .ok expected90 ∧
    (chunks 63 sub90).map List.length = [63, 27] :=
  ⟨⟨by decide, by decide⟩, pack_roundtrip parent1 sub90 (by decide) (by decide),
    rfl, by decide⟩

/-- C5: the label packer fails with the "message too long" error exactly
when the subdata length exceeds the capacity, and in that case no domain
name is produced. -/
theorem pack_too_long (client : SliverDNSClient) (sub : List Char) :
    (joinSubdataToParent client sub = .error errMsgTooLong ↔
      client.subdataSpace < sub.length) ∧
    (client.subdataSpace < sub.length →
      ∀ domain, joinSubdataToParent client sub ≠ .ok domain) := by
  constructor
  · constructor
    · intro h
      by_contra hc
      push_neg at hc
      rw [joinSubdataToParent, if_neg (by omega)] at h
      exact absurd h (by simp)
    · intro h
      rw [joinSubdataToParent, if_pos h]
  · intro h domain
    rw [joinSubdataToParent, if_pos h]
    simp

/-- Witness for C5: the test's 100-character subdata against the
154-character `parentMax` (capacity 98) fails with `errMsgTooLong`. -/
theorem pack_too_long_witness :
    (newDNSClient parentMax).subdataSpace < sub100.length ∧
    joinSubdataToParent (newDNSClient parentMax) sub100 = .error errMsgTooLong :=
  ⟨by decide, (pack_too_long (newDNSClient parentMax) sub100).1.mpr (by decide)⟩

/-- C6: every domain name emitted by the label packer (on encoder-alphabet
subdata) and by the message splitter is a legal fragment query: at most 254
visible characters, one or more nonempty data labels of at most 63
characters each drawn from the selected encoder's alphabet, suffixed with
the parent domain. -/
theorem emitted_names_legal (parent : List Char) (hp : parent.length ≤ 253)
    (enc : TransportEncoder) :
    (∀ sub domain, sub ≠ [] → (∀ c ∈ sub, c ∈ enc.alphabet) →
      joinSubdataToParent (newDNSClient parent) sub = .ok domain →
      domain.length ≤ 254 ∧
      ∃ ls : List (List Char), ls ≠ [] ∧
        (∀ l ∈ ls, 0 < l.length ∧ l.length ≤ 63 ∧ ∀ c ∈ l, c ∈ enc.alphabet) ∧
        domain = dotJoin ls ++ parent) ∧
    (∀ (msg : DNSMessage) (maxLength : Nat) (b : List Nat) domains,
      splitBuffer (newDNSClient parent) msg enc maxLength b = .ok domains →
      ∀ domain ∈ domains,
        domain.length ≤ 254 ∧
        ∃ ls : List (List Char), ls ≠ [] ∧
          (∀ l ∈ ls, 0 < l.length ∧ l.length ≤ 63 ∧ ∀ c ∈ l, c ∈ enc.alphabet) ∧
          domain = dotJoin ls ++ parent) := by
  have hpack : ∀ sub domain, sub ≠ [] → (∀ c ∈ sub, c ∈ enc.alphabet) →
      joinSubdataToParent (newDNSClient parent) sub = .ok domain →
      domain.length ≤ 254 ∧
      ∃ ls : List (List Char), ls ≠ [] ∧
        (∀ l ∈ ls, 0 < l.length ∧ l.length ≤ 63 ∧ ∀ c ∈ l, c ∈ enc.alphabet) ∧
        domain = dotJoin ls ++ parent := by
    intro sub domain hne hsub hjoin
    refine ⟨joinSubdataToParent_le_254 parent hp sub domain hjoin, ?_⟩
    obtain ⟨ls, hlsne, hlsshape, hlsdom⟩ :=
      joinSubdataToParent_shape (newDNSClient parent) sub domain hjoin hne
    refine ⟨ls, hlsne, ?_, hlsdom⟩
    intro l hl
    obtain ⟨h1, h2, h3⟩ := hlsshape l hl
    exact ⟨h1, h2, fun c hc => hsub c (h3 c hc)⟩
  refine ⟨hpack, ?_⟩
  intro msg maxLength b domains hsplit domain hdom
  obtain ⟨sub, hsubne, hsubmem, hjoin⟩ :=
    splitBufferAux_domains_shape (newDNSClient parent) msg.type msg.size enc
      maxLength b.length b domains hsplit domain hdom
  exact hpack sub domain hsubne hsubmem hjoin

/-- Witness for C6, at `parent1` with the Base58 encoder. -/
theorem emitted_names_legal_witness :
    parent1.length ≤ 253 ∧
    ((∀ sub domain, sub ≠ [] →
        (∀ c ∈ sub, c ∈ TransportEncoder.base58.alphabet) →
        joinSubdataToParent (newDNSClient parent1) sub = .ok domain →
        domain.length ≤ 254 ∧
        ∃ ls : List (List Char), ls ≠ [] ∧
          (∀ l ∈ ls, 0 < l.length ∧ l.length ≤ 63 ∧
            ∀ c ∈ l, c ∈ TransportEncoder.base58.alphabet) ∧
          domain = dotJoin ls ++ parent1) ∧
      (∀ (msg : DNSMessage) (maxLength : Nat) (b : List Nat) domains,
        splitBuffer (newDNSClient parent1) msg TransportEncoder.base58
          maxLength b = .ok domains →
        ∀ domain ∈ domains,
          domain.length ≤ 254 ∧
          ∃ ls : List (List Char), ls ≠ [] ∧
            (∀ l ∈ ls, 0 < l.length ∧ l.length ≤ 63 ∧
              ∀ c ∈ l, c ∈ TransportEncoder.base58.alphabet) ∧
            domain = dotJoin ls ++ parent1)) :=
  ⟨by decide, emitted_names_legal parent1 (by decide) TransportEncoder.base58⟩

/-- C7: for every alphabet encoder provided by the transport and every byte
sequence, decoding the encoding recovers the bytes: encode and decode are
mutually inverse. -/
theorem encoders_mutually_inverse (e : TransportEncoder) (b : List Nat)
    (hb : ∀ x ∈ b, x < 256) :
    decode e.alphabet (encode e.alphabet b) = some b :=
  transport_decode_encode e b hb

/-- Witness for C7: both transport encoders round-trip a concrete byte
sequence with leading zeros and high bytes. -/
theorem encoders_mutually_inverse_witness :
    (∀ x ∈ [0, 255, 7, 0], x < 256) ∧
    decode TransportEncoder.base58.alphabet
      (encode TransportEncoder.base58.alphabet [0, 255, 7, 0]) =
      some [0, 255, 7, 0] ∧
    decode TransportEncoder.base32.alphabet
      (encode TransportEncoder.base32.alphabet [0, 255, 7, 0]) =
      some [0, 255, 7, 0] :=
  ⟨by decide, encoders_mutually_inverse .base58 _ (by decide),
    encoders_mutually_inverse .base32 _ (by decide)⟩

/-- C8: in resolver dispatch, a resolver with strictly more errors is
selected strictly later in the ranked order than one with fewer errors
(ties broken by configuration order by construction of `rankResolvers`),
and the pool reports exhaustion only once every resolver's full retry
budget has been spent — the failure trace then has exactly the sum of all
retry budgets. -/
theorem resolver_failover (pool : List ResolverMeta) (oracle : Nat → Nat → Bool)
    (p q : Nat) (hp : p < (rankResolvers pool).length)
    (hq : q < (rankResolvers pool).length)
    (hlt : ((rankResolvers pool).get ⟨q, hq⟩).2.errors <
      ((rankResolvers pool).get ⟨p, hp⟩).2.errors) :
    q < p ∧
    ∀ trace, dispatch pool oracle = (trace, none) →
      trace.length = (pool.map (fun r => r.retries)).sum := by
  refine ⟨rankResolvers_order pool p q hp hq hlt, ?_⟩
  intro trace h
  have h2 : (dispatch pool oracle).2 = none := by rw [h]
  have h1 : (dispatch pool oracle).1 = trace := by rw [h]
  have hlen := dispatchRanked_exhaust_length oracle (rankResolvers pool) h2
  rw [← rankResolvers_retries_sum pool, ← h1]
  exact hlen

/-- Witness for C8: a two-resolver pool where the first configured resolver
has 5 errors and the second has 2 dispatches to the second first, and an
all-failing oracle exhausts both retry budgets (trace length 2). -/
theorem resolver_failover_witness :
    (0 : Nat) < 1 ∧
    (∀ trace, dispatch
        [{ address := 0, retries := 1, errors := 5 },
         { address := 1, retries := 1, errors := 2 }] (fun _ _ => false) =
        (trace, none) →
      trace.length =
        ([{ address := 0, retries := 1, errors := 5 },
           { address := 1, retries := 1, errors := 2 }].map
          (fun r => ResolverMeta.retries r)).sum) ∧
    dispatch
      [{ address := 0, retries := 1, errors := 5 },
       { address := 1, retries := 1, errors := 2 }] (fun _ _ => false) =
      ([(1, 0), (0, 0)], none) := by
  have happ := resolver_failover
    [{ address := 0, retries := 1, errors := 5 },
     { address := 1, retries := 1, errors := 2 }] (fun _ _ => false)
    1 0 (by decide) (by decide) (by decide)
  exact ⟨happ.1, happ.2, by decide⟩

/-- C9: the message splitter is deterministic — identical client, envelope
template, encoder, capacity and payload give identical sequences of domain
names. -/
theorem split_deterministic (client : SliverDNSClient)
    (msg msg' : DNSMessage) (enc enc' : TransportEncoder)
    (maxLength maxLength' : Nat) (b b' : List Nat)
    (h1 : msg = msg') (h2 : enc = enc') (h3 : maxLength = maxLength')
    (h4 : b = b') :
    splitBuffer client msg enc maxLength b =
      splitBuffer client msg' enc' maxLength' b' := by
  subst h1
  subst h2
  subst h3
  subst h4
  rfl

/-- Witness for C9, at the concrete C1 configuration. -/
theorem split_deterministic_witness :
    splitBuffer (newDNSClient parent1)
      { type := .dataFromImplant, size := 3, data := [] }
      TransportEncoder.base58 235 [1, 2, 3] =
    splitBuffer (newDNSClient parent1)
      { type := .dataFromImplant, size := 3, data := [] }
      TransportEncoder.base58 235 [1, 2, 3] :=
  split_deterministic (newDNSClient parent1)
    { type := .dataFromImplant, size := 3, data := [] }
    { type := .dataFromImplant, size := 3, data := [] }
    TransportEncoder.base58 TransportEncoder.base58 235 235 [1, 2, 3] [1, 2, 3]
    rfl rfl rfl rfl

/-- C10: whenever a `WindowsExtension`'s module is nil (`Load` has not
succeeded), `Call` returns the "module not loaded" error with an empty
effect trace — no export lookup, no invocation, and the `onFinish` callback
is never invoked. -/
theorem call_requires_loaded_module (w : WindowsExtension) (env : ModuleEnv)
    (exportName : List Char) (arguments : List Nat) (h : w.module = none) :
    w.Call env exportName arguments = ([], .error .moduleNotLoaded) ∧
    (∀ name, CallEffect.exportLookup name ∉ (w.Call env exportName arguments).1) ∧
    CallEffect.invokeExport ∉ (w.Call env exportName arguments).1 ∧
    (∀ buf, CallEffect.onFinishCalled buf ∉ (w.Call env exportName arguments).1) := by
  have hc : w.Call env exportName arguments = ([], .error .moduleNotLoaded) := by
    rw [WindowsExtension.Call, h]
  refine ⟨hc, fun name => ?_, ?_, fun buf => ?_⟩ <;> rw [hc] <;> simp

/-- Witness for C10: a freshly constructed extension (module nil) rejects a
call even when the environment could resolve exports and the DLL would pass
back data. -/
theorem call_requires_loaded_module_witness :
    (NewWindowsExtension [1, 2] [] [] []).module = none ∧
    (NewWindowsExtension [1, 2] [] [] []).Call
      { procAddress := fun _ => some 7, callbackBuffers := [[3]], errno := 0 }
      "Run".toList [9] = ([], .error .moduleNotLoaded) :=
  ⟨rfl, (call_requires_loaded_module (NewWindowsExtension [1, 2] [] [] [])
    { procAddress := fun _ => some 7, callbackBuffers := [[3]], errno := 0 }
    "Run".toList [9] rfl).1⟩
